import Mathlib

/-!
Verification of `src/c/cpuid.c` (`cpuid_raw`).

The C function is:

  void cpuid_raw(uint32_t leaf, uint32_t subleaf,
                 uint32_t* eax, uint32_t* ebx, uint32_t* ecx, uint32_t* edx) {
  #if defined(_MSC_VER)
      int regs[4];
      __cpuidex(regs, leaf, subleaf);
      *eax = regs[0]; *ebx = regs[1]; *ecx = regs[2]; *edx = regs[3];
  #elif defined(__GNUC__) || defined(__clang__)
      __asm__ volatile("cpuid"
                       : "=a"(*eax), "=b"(*ebx), "=c"(*ecx), "=d"(*edx)
                       : "a"(leaf), "c"(subleaf));
  #else
      *eax = *ebx = *ecx = *edx = 0;
  #endif
  }

The compile-time configuration (which preprocessor macros are defined) is a
`Config`.  The toolchain intrinsic `__cpuidex` and the hardware `cpuid`
instruction are external to the repository; they are modelled as oracle
parameters, fixed for a given processor context.  Machine integers are
`Nat` reduced modulo `2^32` (for `uint32_t`) and `Int` two's-complement
patterns (for `int`), with the C conversions made explicit.
-/

/-- The modulus `2^32` of `uint32_t` arithmetic. -/
def U32 : Nat := 2 ^ 32

/-- The C conversion from a `uint32_t` value (a `Nat` below `2^32`) to a
32-bit two's-complement `int`: values below `2^31` are preserved, larger
ones wrap to negative (bit pattern preserved). -/
def toInt32 (n : Nat) : Int :=
  if n < 2 ^ 31 then (n : Int) else (n : Int) - (U32 : Int)

/-- The C conversion from an `int` to a `uint32_t`: reduction modulo
`2^32` (bit pattern preserved). -/
def ofInt32 (i : Int) : Nat :=
  (i % (U32 : Int)).toNat

/-- The four 32-bit registers produced by one execution of the `cpuid`
instruction (also the four output values of `cpuid_raw`). -/
structure Regs where
  eax : Nat
  ebx : Nat
  ecx : Nat
  edx : Nat
deriving DecidableEq, Repr

/-- Hardware model of the `cpuid` instruction: a fixed function from the
two input registers the instruction reads (`eax` = leaf, `ecx` = subleaf)
to the four output registers.  Fixed per processor context: processor
identification data does not change at runtime. -/
abbrev Hw := Nat → Nat → Regs

/-- Toolchain model of the `__cpuidex` intrinsic: a fixed function from
the two `int` selector arguments to the 4-element `int` result array
(`regs[0]` to `regs[3]`). -/
abbrev Intrin := Int → Int → Fin 4 → Int

/-- Compile-time configuration: which of the preprocessor macros tested
by `cpuid.c` are defined. -/
structure Config where
  msc : Bool
  gnuc : Bool
  clang : Bool
deriving DecidableEq, Repr

/-- The three compile-time branches of `cpuid_raw`. -/
inductive Branch where
  | intrinsic
  | inlineAsm
  | fallback
deriving DecidableEq, Repr

/-- Which branch the preprocessor selects: `#if defined(_MSC_VER)`, then
`#elif defined(__GNUC__) || defined(__clang__)`, then `#else`.  A function
of the configuration alone. -/
def Config.branch (c : Config) : Branch :=
  if c.msc then Branch.intrinsic
  else if c.gnuc || c.clang then Branch.inlineAsm
  else Branch.fallback

/-- Value level of `cpuid_raw`: the four values written through the four
output pointers, as a function of the compile-time configuration, the two
oracles and the two selectors.

Intrinsic branch: `__cpuidex(regs, leaf, subleaf)` receives the selectors
converted to `int` and fills `int regs[4]`; `*eax = regs[0]` etc. convert
each element back to `uint32_t`.
Inline-assembly branch: `cpuid` executes with `eax` bound to `leaf` and
`ecx` bound to `subleaf`; the four outputs read `eax, ebx, ecx, edx`.
Fallback branch: all four outputs are zero. -/
def cpuid_raw (cfg : Config) (intrin : Intrin) (hw : Hw)
    (leaf subleaf : Nat) : Regs :=
  if cfg.msc then
    let regs : Fin 4 → Int := intrin (toInt32 leaf) (toInt32 subleaf)
    ⟨ofInt32 (regs 0), ofInt32 (regs 1), ofInt32 (regs 2), ofInt32 (regs 3)⟩
  else if cfg.gnuc || cfg.clang then
    hw leaf subleaf
  else
    ⟨0, 0, 0, 0⟩

/-- A store of a 32-bit value through a pointer (modelled as an address). -/
structure Write where
  addr : Nat
  val : Nat
deriving DecidableEq, Repr

/-- Memory: a map from addresses to 32-bit values. -/
abbrev Mem := Nat → Nat

/-- One store applied to memory. -/
def applyW (m : Mem) (w : Write) : Mem :=
  fun a => if a = w.addr then w.val else m a

/-- A straight-line sequence of stores applied to memory, first to last. -/
def applyWrites (m : Mem) (ws : List Write) : Mem :=
  ws.foldl applyW m

/-- The last value a sequence of stores leaves at address `a`, if any
store targets `a`. -/
def lastWrite : List Write → Nat → Option Nat
  | [], _ => none
  | w :: ws, a =>
    match lastWrite ws a with
    | some v => some v
    | none => if w.addr = a then some w.val else none

/-- Store level of `cpuid_raw`: the exact sequence of stores the body
performs on each compile-time branch, given the four output pointers
`pa pb pc pd` (for `eax ebx ecx edx`).  The fallback
`*eax = *ebx = *ecx = *edx = 0;` assigns right to left (`*edx` first). -/
def cpuidRawWrites (cfg : Config) (intrin : Intrin) (hw : Hw)
    (leaf subleaf pa pb pc pd : Nat) : List Write :=
  if cfg.msc then
    let regs : Fin 4 → Int := intrin (toInt32 leaf) (toInt32 subleaf)
    [⟨pa, ofInt32 (regs 0)⟩, ⟨pb, ofInt32 (regs 1)⟩,
     ⟨pc, ofInt32 (regs 2)⟩, ⟨pd, ofInt32 (regs 3)⟩]
  else if cfg.gnuc || cfg.clang then
    let r := hw leaf subleaf
    [⟨pa, r.eax⟩, ⟨pb, r.ebx⟩, ⟨pc, r.ecx⟩, ⟨pd, r.edx⟩]
  else
    [⟨pd, 0⟩, ⟨pc, 0⟩, ⟨pb, 0⟩, ⟨pa, 0⟩]

/-- The four output pointers are pairwise distinct. -/
abbrev Nodup4 (pa pb pc pd : Nat) : Prop :=
  pa ≠ pb ∧ pa ≠ pc ∧ pa ≠ pd ∧ pb ≠ pc ∧ pb ≠ pd ∧ pc ≠ pd

/-- A sequence of calls executed back to back in one processor context:
each call maps its `(leaf, subleaf)` input to the four output values. -/
def runCalls (cfg : Config) (intrin : Intrin) (hw : Hw)
    (calls : List (Nat × Nat)) : List Regs :=
  calls.map (fun c => cpuid_raw cfg intrin hw c.1 c.2)

/-- An interleaved execution of `n` threads of stores: `Merge ts out`
holds when `out` is obtained by repeatedly removing the head store of
some thread.  Each thread's own order is preserved; threads interleave
arbitrarily and run with no synchronization. -/
inductive Merge (n : Nat) : (Fin n → List Write) → List Write → Prop where
  | done (ts : Fin n → List Write) :
      (∀ i, ts i = []) → Merge n ts []
  | step (ts : Fin n → List Write) (i : Fin n) (w : Write)
      (rest out : List Write) :
      ts i = w :: rest → Merge n (Function.update ts i rest) out →
      Merge n ts (w :: out)

/-- A compile-time configuration on which no macro is defined (the
fallback branch). -/
def noneCfg : Config := ⟨false, false, false⟩

/-- A trivial intrinsic oracle, for concrete instantiations. -/
def zeroIntrin : Intrin := fun _ _ _ => 0

/-- A trivial hardware oracle, for concrete instantiations. -/
def zeroHw : Hw := fun _ _ => ⟨0, 0, 0, 0⟩

/-- A compile-time configuration with only `__GNUC__` defined (the
inline-assembly branch). -/
def gnuCfg : Config := ⟨false, true, false⟩

/-- A concrete hardware oracle distinguishing the four registers and
both selectors, for concrete instantiations. -/
def demoHw : Hw := fun l s => ⟨l + s + 1, l + s + 2, l + s + 3, l + s + 4⟩

/-- A compile-time configuration with only `_MSC_VER` defined (the
intrinsic branch). -/
def mscCfg : Config := ⟨true, false, false⟩

/-- A concrete intrinsic oracle with a negative array element, for
concrete instantiations. -/
def demoIntrin : Intrin := fun _ _ i => if i = 3 then (-2 : Int) else (i : Int)

/-- C1: in the fallback configuration (no vendor intrinsic, no inline
assembly) `cpuid_raw` returns `(0, 0, 0, 0)` for every input pair. -/
theorem c1_fallback_all_zero (cfg : Config) (intrin : Intrin) (hw : Hw)
    (leaf subleaf : Nat)
    (hm : cfg.msc = false) (hg : cfg.gnuc = false) (hc : cfg.clang = false) :
    cpuid_raw cfg intrin hw leaf subleaf = ⟨0, 0, 0, 0⟩ := by
  simp [cpuid_raw, hm, hg, hc]

/-- C1 witness: the fallback configuration at input `(0, 0)` (and at
`(7, 3)`) returns all zeros. -/
theorem c1_fallback_all_zero_wit :
    cpuid_raw noneCfg zeroIntrin zeroHw 0 0 = ⟨0, 0, 0, 0⟩ ∧
    cpuid_raw noneCfg zeroIntrin zeroHw 7 3 = ⟨0, 0, 0, 0⟩ :=
  ⟨c1_fallback_all_zero noneCfg zeroIntrin zeroHw 0 0 rfl rfl rfl,
   c1_fallback_all_zero noneCfg zeroIntrin zeroHw 7 3 rfl rfl rfl⟩

/-- C3: the dispatch of `cpuid_raw` is a three-way branch on the
compile-time configuration alone, tried in order: the intrinsic when
`_MSC_VER` is defined; else inline assembly when `__GNUC__` or
`__clang__` is defined; else the all-zero fallback.  No runtime value
selects among them: the branch taken is the same for every input pair,
and the three branches exhaust and determine the behaviour. -/
theorem c3_compile_time_dispatch (cfg : Config) (intrin : Intrin) (hw : Hw)
    (leaf subleaf leaf' subleaf' : Nat) :
    (cfg.branch = (if cfg.msc then Branch.intrinsic
      else if cfg.gnuc || cfg.clang then Branch.inlineAsm
      else Branch.fallback)) ∧
    (cpuid_raw cfg intrin hw leaf subleaf =
      match cfg.branch with
      | Branch.intrinsic =>
        let regs : Fin 4 → Int := intrin (toInt32 leaf) (toInt32 subleaf)
        ⟨ofInt32 (regs 0), ofInt32 (regs 1), ofInt32 (regs 2), ofInt32 (regs 3)⟩
      | Branch.inlineAsm => hw leaf subleaf
      | Branch.fallback => ⟨0, 0, 0, 0⟩) ∧
    ((cpuidRawWrites cfg intrin hw leaf subleaf 0 1 2 3).length =
      (cpuidRawWrites cfg intrin hw leaf' subleaf' 0 1 2 3).length) := by
  rcases cfg with ⟨msc, gnuc, clang⟩
  cases msc <;> cases gnuc <;> cases clang <;>
    simp [Config.branch, cpuid_raw, cpuidRawWrites]

/-- C4: on the intrinsic branch, `cpuid_raw` calls the intrinsic with
the two selectors and unpacks its 4-element result array in order:
element 0 into the first output, element 1 into the second, element 2
into the third, element 3 into the fourth. -/
theorem c4_intrinsic_unpack_in_order (cfg : Config) (intrin : Intrin)
    (hw : Hw) (leaf subleaf : Nat) (hm : cfg.msc = true) :
    (cpuid_raw cfg intrin hw leaf subleaf).eax =
      ofInt32 (intrin (toInt32 leaf) (toInt32 subleaf) 0) ∧
    (cpuid_raw cfg intrin hw leaf subleaf).ebx =
      ofInt32 (intrin (toInt32 leaf) (toInt32 subleaf) 1) ∧
    (cpuid_raw cfg intrin hw leaf subleaf).ecx =
      ofInt32 (intrin (toInt32 leaf) (toInt32 subleaf) 2) ∧
    (cpuid_raw cfg intrin hw leaf subleaf).edx =
      ofInt32 (intrin (toInt32 leaf) (toInt32 subleaf) 3) := by
  simp [cpuid_raw, hm]

/-- C4 witness: a concrete MSC configuration with a concrete intrinsic
whose array is `(10, 11, 12, 13)` unpacks in order. -/
theorem c4_intrinsic_unpack_in_order_wit :
    (cpuid_raw ⟨true, false, false⟩ (fun _ _ i => (10 : Int) + i) zeroHw 5 6).eax
      = ofInt32 ((fun _ _ i => (10 : Int) + (i : Fin 4)) 0 0 0) ∧
    (cpuid_raw ⟨true, false, false⟩ (fun _ _ i => (10 : Int) + i) zeroHw 5 6).ebx
      = ofInt32 ((fun _ _ i => (10 : Int) + (i : Fin 4)) 0 0 1) ∧
    (cpuid_raw ⟨true, false, false⟩ (fun _ _ i => (10 : Int) + i) zeroHw 5 6).ecx
      = ofInt32 ((fun _ _ i => (10 : Int) + (i : Fin 4)) 0 0 2) ∧
    (cpuid_raw ⟨true, false, false⟩ (fun _ _ i => (10 : Int) + i) zeroHw 5 6).edx
      = ofInt32 ((fun _ _ i => (10 : Int) + (i : Fin 4)) 0 0 3) :=
  c4_intrinsic_unpack_in_order ⟨true, false, false⟩
    (fun _ _ i => (10 : Int) + i) zeroHw 5 6 rfl

/-- C5: on the inline-assembly branch, `cpuid_raw` executes the `cpuid`
instruction with `leaf` bound to the input register `eax` and `subleaf`
bound to the input register `ecx`, and reads the four output registers
`eax, ebx, ecx, edx` into the four outputs in that role order. -/
theorem c5_asm_register_binding (cfg : Config) (intrin : Intrin) (hw : Hw)
    (leaf subleaf : Nat) (hm : cfg.msc = false)
    (hgc : (cfg.gnuc || cfg.clang) = true) :
    (cpuid_raw cfg intrin hw leaf subleaf).eax = (hw leaf subleaf).eax ∧
    (cpuid_raw cfg intrin hw leaf subleaf).ebx = (hw leaf subleaf).ebx ∧
    (cpuid_raw cfg intrin hw leaf subleaf).ecx = (hw leaf subleaf).ecx ∧
    (cpuid_raw cfg intrin hw leaf subleaf).edx = (hw leaf subleaf).edx := by
  simp [cpuid_raw, hm, hgc]

/-- C5 witness: a concrete GNU configuration with a concrete hardware
oracle that distinguishes all four registers and depends on both
selectors. -/
theorem c5_asm_register_binding_wit :
    (cpuid_raw ⟨false, true, false⟩ zeroIntrin
      (fun l s => ⟨l, s, l + s, 40⟩) 8 9).eax = ((fun l s => Regs.mk l s (l + s) 40) 8 9).eax ∧
    (cpuid_raw ⟨false, true, false⟩ zeroIntrin
      (fun l s => ⟨l, s, l + s, 40⟩) 8 9).ebx = ((fun l s => Regs.mk l s (l + s) 40) 8 9).ebx ∧
    (cpuid_raw ⟨false, true, false⟩ zeroIntrin
      (fun l s => ⟨l, s, l + s, 40⟩) 8 9).ecx = ((fun l s => Regs.mk l s (l + s) 40) 8 9).ecx ∧
    (cpuid_raw ⟨false, true, false⟩ zeroIntrin
      (fun l s => ⟨l, s, l + s, 40⟩) 8 9).edx = ((fun l s => Regs.mk l s (l + s) 40) 8 9).edx :=
  c5_asm_register_binding ⟨false, true, false⟩ zeroIntrin
    (fun l s => ⟨l, s, l + s, 40⟩) 8 9 rfl rfl

/-- C6: two-run determinism within a fixed processor context (fixed
oracles): in any sequence of calls, two calls with the same
`(leaf, subleaf)` input produce identical output quadruples — in
particular two calls with leaf 0 and subleaf 0. -/
theorem c6_two_run_determinism (cfg : Config) (intrin : Intrin) (hw : Hw)
    (calls : List (Nat × Nat)) (i j : Nat)
    (h : calls[i]? = calls[j]?) :
    (runCalls cfg intrin hw calls)[i]? = (runCalls cfg intrin hw calls)[j]? := by
  simp only [runCalls, List.getElem?_map, h]

/-- C6 witness: the two calls of the trace `[(0,0), (0,0)]` yield
identical outputs. -/
theorem c6_two_run_determinism_wit :
    ((0, 0) :: [((0 : Nat), (0 : Nat))])[0]? = ((0, 0) :: [((0 : Nat), (0 : Nat))])[1]? ∧
    (runCalls noneCfg zeroIntrin zeroHw ((0, 0) :: [(0, 0)]))[0]? =
      (runCalls noneCfg zeroIntrin zeroHw ((0, 0) :: [(0, 0)]))[1]? :=
  ⟨rfl, c6_two_run_determinism noneCfg zeroIntrin zeroHw ((0, 0) :: [(0, 0)]) 0 1 rfl⟩

/-- Applying a store sequence: the value at an address is the value of
the last store to it, else the initial contents. -/
theorem applyWrites_getD (ws : List Write) (m : Mem) (a : Nat) :
    applyWrites m ws a = (lastWrite ws a).getD (m a) := by
  induction ws generalizing m with
  | nil => rfl
  | cons w ws ih =>
    have hstep : applyWrites m (w :: ws) = applyWrites (applyW m w) ws := rfl
    rw [hstep, ih]
    cases h : lastWrite ws a with
    | some v => simp [lastWrite, h]
    | none =>
      by_cases hc : w.addr = a
      · simp [lastWrite, h, hc, applyW]
      · have hc2 : ¬ a = w.addr := fun he => hc he.symm
        simp [lastWrite, h, hc, hc2, applyW]

/-- A sequence containing a store to `a` leaves a last store at `a`. -/
theorem lastWrite_isSome (ws : List Write) (a : Nat)
    (h : ∃ w ∈ ws, w.addr = a) : (lastWrite ws a).isSome = true := by
  induction ws with
  | nil => rcases h with ⟨w, hw, _⟩; cases hw
  | cons w ws ih =>
    rcases h with ⟨w', hw', ha⟩
    rcases List.mem_cons.mp hw' with he | hm
    · subst he
      cases hlw : lastWrite ws a with
      | some v => simp [lastWrite, hlw]
      | none => simp [lastWrite, hlw, ha]
    · have hs := ih ⟨w', hm, ha⟩
      cases hlw : lastWrite ws a with
      | some v => simp [lastWrite, hlw]
      | none => rw [hlw] at hs; cases hs

/-- A sequence with no store to `a` leaves no last store at `a`. -/
theorem lastWrite_none (ws : List Write) (a : Nat)
    (h : ∀ w ∈ ws, w.addr ≠ a) : lastWrite ws a = none := by
  induction ws with
  | nil => rfl
  | cons w ws ih =>
    have ht := ih (fun w' hw' => h w' (List.mem_cons_of_mem _ hw'))
    have hh : w.addr ≠ a := h w (List.mem_cons_self _ _)
    simp [lastWrite, ht, hh]

/-- A head store to a different address does not change the last store
at `a`. -/
theorem lastWrite_cons_ne (w : Write) (ws : List Write) (a : Nat)
    (h : w.addr ≠ a) : lastWrite (w :: ws) a = lastWrite ws a := by
  cases hlw : lastWrite ws a <;> simp [lastWrite, hlw, h]

/-- Every store of the body targets one of the four output pointers. -/
theorem cpuidRawWrites_addr (cfg : Config) (intrin : Intrin) (hw : Hw)
    (leaf subleaf pa pb pc pd : Nat) (w : Write)
    (hmem : w ∈ cpuidRawWrites cfg intrin hw leaf subleaf pa pb pc pd) :
    w.addr = pa ∨ w.addr = pb ∨ w.addr = pc ∨ w.addr = pd := by
  rcases cfg with ⟨msc, gnuc, clang⟩
  cases msc <;> cases gnuc <;> cases clang <;>
    simp [cpuidRawWrites] at hmem <;>
    rcases hmem with h | h | h | h <;> simp [h]

/-- On every branch the body stores to each of the four output
pointers. -/
theorem cpuidRawWrites_covers (cfg : Config) (intrin : Intrin) (hw : Hw)
    (leaf subleaf pa pb pc pd p : Nat)
    (hp : p = pa ∨ p = pb ∨ p = pc ∨ p = pd) :
    ∃ w ∈ cpuidRawWrites cfg intrin hw leaf subleaf pa pb pc pd,
      w.addr = p := by
  rcases cfg with ⟨msc, gnuc, clang⟩
  rcases hp with h | h | h | h <;> subst h <;>
    cases msc <;> cases gnuc <;> cases clang <;>
      simp [cpuidRawWrites]

/-- With pairwise-distinct output pointers, the last store of the body
to each pointer carries exactly the corresponding output value of the
call. -/
theorem lastWrite_cpuidRawWrites (cfg : Config) (intrin : Intrin) (hw : Hw)
    (leaf subleaf pa pb pc pd : Nat) (hd : Nodup4 pa pb pc pd) :
    lastWrite (cpuidRawWrites cfg intrin hw leaf subleaf pa pb pc pd) pa =
      some ((cpuid_raw cfg intrin hw leaf subleaf).eax) ∧
    lastWrite (cpuidRawWrites cfg intrin hw leaf subleaf pa pb pc pd) pb =
      some ((cpuid_raw cfg intrin hw leaf subleaf).ebx) ∧
    lastWrite (cpuidRawWrites cfg intrin hw leaf subleaf pa pb pc pd) pc =
      some ((cpuid_raw cfg intrin hw leaf subleaf).ecx) ∧
    lastWrite (cpuidRawWrites cfg intrin hw leaf subleaf pa pb pc pd) pd =
      some ((cpuid_raw cfg intrin hw leaf subleaf).edx) := by
  obtain ⟨h1, h2, h3, h4, h5, h6⟩ := hd
  rcases cfg with ⟨msc, gnuc, clang⟩
  cases msc <;> cases gnuc <;> cases clang <;>
    simp [cpuidRawWrites, cpuid_raw, lastWrite,
      h1, h2, h3, h4, h5, h6,
      h1.symm, h2.symm, h3.symm, h4.symm, h5.symm, h6.symm]

/-- C2: on every compile-time branch and for every input, the body
stores to all four output locations before returning: each of the four
pointers receives a last store, and the final contents of each output
location are independent of its prior contents.  (The embedding is a
total function: no branch throws or aborts.) -/
theorem c2_all_outputs_written (cfg : Config) (intrin : Intrin) (hw : Hw)
    (leaf subleaf pa pb pc pd p : Nat) (m₁ m₂ : Mem)
    (hp : p = pa ∨ p = pb ∨ p = pc ∨ p = pd) :
    (lastWrite (cpuidRawWrites cfg intrin hw leaf subleaf pa pb pc pd) p).isSome
      = true ∧
    applyWrites m₁ (cpuidRawWrites cfg intrin hw leaf subleaf pa pb pc pd) p =
      applyWrites m₂ (cpuidRawWrites cfg intrin hw leaf subleaf pa pb pc pd) p := by
  have hsome := lastWrite_isSome _ p
    (cpuidRawWrites_covers cfg intrin hw leaf subleaf pa pb pc pd p hp)
  refine ⟨hsome, ?_⟩
  rw [applyWrites_getD, applyWrites_getD]
  rcases hv : lastWrite (cpuidRawWrites cfg intrin hw leaf subleaf pa pb pc pd) p with
    _ | v
  · rw [hv] at hsome; cases hsome
  · rfl

/-- C2 witness: in the fallback configuration at input `(0, 0)` with
pointers `0 1 2 3`, the first output location receives a last store and
its final contents do not depend on the initial memory. -/
theorem c2_all_outputs_written_wit :
    (lastWrite (cpuidRawWrites noneCfg zeroIntrin zeroHw 0 0 0 1 2 3) 0).isSome
      = true ∧
    applyWrites (fun _ => 5) (cpuidRawWrites noneCfg zeroIntrin zeroHw 0 0 0 1 2 3) 0 =
      applyWrites (fun _ => 77) (cpuidRawWrites noneCfg zeroIntrin zeroHw 0 0 0 1 2 3) 0 :=
  c2_all_outputs_written noneCfg zeroIntrin zeroHw 0 0 0 1 2 3 0
    (fun _ => 5) (fun _ => 77) (Or.inl rfl)

/-- C7: on every compile-time branch and for every input, the body is a
terminating straight-line sequence of exactly four stores (no loops, no
recursion, a constant step bound), and the value-level call always
yields a result. -/
theorem c7_terminates_bounded (cfg : Config) (intrin : Intrin) (hw : Hw)
    (leaf subleaf pa pb pc pd : Nat) :
    (cpuidRawWrites cfg intrin hw leaf subleaf pa pb pc pd).length = 4 ∧
    ∃ r : Regs, cpuid_raw cfg intrin hw leaf subleaf = r := by
  refine ⟨?_, ⟨cpuid_raw cfg intrin hw leaf subleaf, rfl⟩⟩
  rcases cfg with ⟨msc, gnuc, clang⟩
  cases msc <;> cases gnuc <;> cases clang <;> simp [cpuidRawWrites]

/-- C8: the body has no observable effect on memory other than the four
output locations: every address other than the four output pointers is
left unchanged by the call. -/
theorem c8_frame (cfg : Config) (intrin : Intrin) (hw : Hw)
    (leaf subleaf pa pb pc pd : Nat) (m : Mem) (a : Nat)
    (ha : a ≠ pa) (hb : a ≠ pb) (hc : a ≠ pc) (hd : a ≠ pd) :
    applyWrites m (cpuidRawWrites cfg intrin hw leaf subleaf pa pb pc pd) a
      = m a := by
  rw [applyWrites_getD]
  have hnone : lastWrite (cpuidRawWrites cfg intrin hw leaf subleaf pa pb pc pd) a
      = none := by
    apply lastWrite_none
    intro w hmem he
    rcases cpuidRawWrites_addr cfg intrin hw leaf subleaf pa pb pc pd w hmem with
      h | h | h | h
    · exact ha (he ▸ h)
    · exact hb (he ▸ h)
    · exact hc (he ▸ h)
    · exact hd (he ▸ h)
  rw [hnone]
  rfl

/-- C8 witness: in the fallback configuration with pointers `0 1 2 3`,
address `9` keeps its initial contents `42`. -/
theorem c8_frame_wit :
    applyWrites (fun _ => 42) (cpuidRawWrites noneCfg zeroIntrin zeroHw 0 0 0 1 2 3) 9
      = (fun _ => (42 : Nat)) 9 :=
  c8_frame noneCfg zeroIntrin zeroHw 0 0 0 1 2 3 (fun _ => 42) 9
    (by decide) (by decide) (by decide) (by decide)

/-- In any interleaved execution, the last store at an address owned by
one thread (no other thread stores to it) is that thread's own last
store to it. -/
theorem merge_lastWrite {n : Nat} {ts : Fin n → List Write}
    {out : List Write} (hm : Merge n ts out) (i : Fin n) (a : Nat) :
    (∀ j, j ≠ i → ∀ w ∈ ts j, w.addr ≠ a) →
    lastWrite out a = lastWrite (ts i) a := by
  induction hm with
  | done ts h =>
    intro _
    rw [h i]
  | step ts j w rest out hhead _ ih =>
    intro hown
    by_cases hji : j = i
    · subst hji
      have hown2 : ∀ k, k ≠ j → ∀ w' ∈ Function.update ts j rest k,
          w'.addr ≠ a := by
        intro k hk w' hw'
        rw [Function.update_noteq hk] at hw'
        exact hown k hk w' hw'
      have ihe := ih hown2
      rw [Function.update_same] at ihe
      rw [hhead]
      simp only [lastWrite, ihe]
    · have hmem : w ∈ ts j := by rw [hhead]; exact List.mem_cons_self _ _
      have hwa : w.addr ≠ a := hown j hji w hmem
      have hown2 : ∀ k, k ≠ i → ∀ w' ∈ Function.update ts j rest k,
          w'.addr ≠ a := by
        intro k hk w' hw'
        by_cases hkj : k = j
        · subst hkj
          rw [Function.update_same] at hw'
          exact hown k hk w' (by rw [hhead]; exact List.mem_cons_of_mem _ hw')
        · rw [Function.update_noteq hkj] at hw'
          exact hown k hk w' hw'
      have ihe := ih hown2
      rw [Function.update_noteq (fun he => hji he.symm)] at ihe
      rw [lastWrite_cons_ne w out a hwa]
      exact ihe

/-- C9: concurrent invocation from `n` independent threads, each with
its own input pair and its own non-shared output storage, under any
unsynchronized interleaving of the threads' stores: each thread finds
at its four output locations exactly the four-value result a
single-threaded sequential invocation with its input would produce
(no cross-call interference). -/
theorem c9_concurrent_no_interference (cfg : Config) (intrin : Intrin)
    (hw : Hw) (n : Nat) (inp : Fin n → Nat × Nat)
    (pa pb pc pd : Fin n → Nat)
    (hnd : ∀ i, Nodup4 (pa i) (pb i) (pc i) (pd i))
    (hdisj : ∀ i j, i ≠ j → ∀ q,
      (q = pa i ∨ q = pb i ∨ q = pc i ∨ q = pd i) →
      ¬(q = pa j ∨ q = pb j ∨ q = pc j ∨ q = pd j))
    (out : List Write)
    (hmerge : Merge n (fun i => cpuidRawWrites cfg intrin hw
      (inp i).1 (inp i).2 (pa i) (pb i) (pc i) (pd i)) out)
    (m : Mem) (i : Fin n) :
    applyWrites m out (pa i) =
      (cpuid_raw cfg intrin hw (inp i).1 (inp i).2).eax ∧
    applyWrites m out (pb i) =
      (cpuid_raw cfg intrin hw (inp i).1 (inp i).2).ebx ∧
    applyWrites m out (pc i) =
      (cpuid_raw cfg intrin hw (inp i).1 (inp i).2).ecx ∧
    applyWrites m out (pd i) =
      (cpuid_raw cfg intrin hw (inp i).1 (inp i).2).edx := by
  have hlast := lastWrite_cpuidRawWrites cfg intrin hw (inp i).1 (inp i).2
    (pa i) (pb i) (pc i) (pd i) (hnd i)
  have hown : ∀ q, (q = pa i ∨ q = pb i ∨ q = pc i ∨ q = pd i) →
      ∀ j, j ≠ i → ∀ w ∈ cpuidRawWrites cfg intrin hw
        (inp j).1 (inp j).2 (pa j) (pb j) (pc j) (pd j), w.addr ≠ q := by
    intro q hq j hji w hmem he
    have hinj : ¬(q = pa j ∨ q = pb j ∨ q = pc j ∨ q = pd j) :=
      hdisj i j (fun h => hji h.symm) q hq
    have haddr := cpuidRawWrites_addr cfg intrin hw
      (inp j).1 (inp j).2 (pa j) (pb j) (pc j) (pd j) w hmem
    rw [he] at haddr
    exact hinj haddr
  refine ⟨?_, ?_, ?_, ?_⟩
  · rw [applyWrites_getD,
      merge_lastWrite hmerge i (pa i) (hown (pa i) (Or.inl rfl)),
      hlast.1]
    rfl
  · rw [applyWrites_getD,
      merge_lastWrite hmerge i (pb i) (hown (pb i) (Or.inr (Or.inl rfl))),
      hlast.2.1]
    rfl
  · rw [applyWrites_getD,
      merge_lastWrite hmerge i (pc i)
        (hown (pc i) (Or.inr (Or.inr (Or.inl rfl)))),
      hlast.2.2.1]
    rfl
  · rw [applyWrites_getD,
      merge_lastWrite hmerge i (pd i)
        (hown (pd i) (Or.inr (Or.inr (Or.inr rfl)))),
      hlast.2.2.2]
    rfl

/-- C9 witness: two threads on the inline-assembly branch, thread 0 with
input `(0, 0)` and output locations `0 1 2 3`, thread 1 with input
`(1, 0)` and output locations `4 5 6 7`, stores interleaved
alternately; each thread reads back exactly its own sequential result. -/
theorem c9_concurrent_no_interference_wit :
    applyWrites (fun _ => 99)
      [⟨0, 1⟩, ⟨4, 2⟩, ⟨1, 2⟩, ⟨5, 3⟩, ⟨2, 3⟩, ⟨6, 4⟩, ⟨3, 4⟩, ⟨7, 5⟩] 0 =
      (cpuid_raw gnuCfg zeroIntrin demoHw 0 0).eax ∧
    applyWrites (fun _ => 99)
      [⟨0, 1⟩, ⟨4, 2⟩, ⟨1, 2⟩, ⟨5, 3⟩, ⟨2, 3⟩, ⟨6, 4⟩, ⟨3, 4⟩, ⟨7, 5⟩] 1 =
      (cpuid_raw gnuCfg zeroIntrin demoHw 0 0).ebx ∧
    applyWrites (fun _ => 99)
      [⟨0, 1⟩, ⟨4, 2⟩, ⟨1, 2⟩, ⟨5, 3⟩, ⟨2, 3⟩, ⟨6, 4⟩, ⟨3, 4⟩, ⟨7, 5⟩] 4 =
      (cpuid_raw gnuCfg zeroIntrin demoHw 1 0).eax ∧
    applyWrites (fun _ => 99)
      [⟨0, 1⟩, ⟨4, 2⟩, ⟨1, 2⟩, ⟨5, 3⟩, ⟨2, 3⟩, ⟨6, 4⟩, ⟨3, 4⟩, ⟨7, 5⟩] 7 =
      (cpuid_raw gnuCfg zeroIntrin demoHw 1 0).edx := by
  have h := c9_concurrent_no_interference gnuCfg zeroIntrin demoHw 2
    (fun i => ((i : Nat), 0))
    (fun i => 4 * (i : Nat)) (fun i => 4 * (i : Nat) + 1)
    (fun i => 4 * (i : Nat) + 2) (fun i => 4 * (i : Nat) + 3)
    (by decide)
    (by
      intro i j hij q hq1 hq2
      fin_cases i <;> fin_cases j <;> simp_all <;> omega)
    [⟨0, 1⟩, ⟨4, 2⟩, ⟨1, 2⟩, ⟨5, 3⟩, ⟨2, 3⟩, ⟨6, 4⟩, ⟨3, 4⟩, ⟨7, 5⟩]
    (by
      refine Merge.step _ 0 _ _ _ rfl ?_
      refine Merge.step _ 1 _ _ _ rfl ?_
      refine Merge.step _ 0 _ _ _ rfl ?_
      refine Merge.step _ 1 _ _ _ rfl ?_
      refine Merge.step _ 0 _ _ _ rfl ?_
      refine Merge.step _ 1 _ _ _ rfl ?_
      refine Merge.step _ 0 _ _ _ rfl ?_
      refine Merge.step _ 1 _ _ _ rfl ?_
      refine Merge.done _ ?_
      intro i
      fin_cases i <;> rfl)
    (fun _ => 99)
  exact ⟨(h 0).1, (h 0).2.1, (h 1).1, (h 1).2.2.2⟩

/-- Converting a `uint32_t` value to `int` preserves it modulo `2^32`
(the 32-bit pattern is preserved). -/
theorem toInt32_emod (n : Nat) (h : n < U32) :
    toInt32 n % (U32 : Int) = (n : Int) := by
  have hU : (U32 : Int) = 4294967296 := by norm_num [U32]
  have h' : (n : Int) < 4294967296 := by
    rw [← hU]; exact_mod_cast h
  unfold toInt32
  by_cases hlt : n < 2 ^ 31
  · rw [if_pos hlt, hU]
    omega
  · rw [if_neg hlt, hU]
    omega

/-- Converting an `int` to `uint32_t` is reduction modulo `2^32`. -/
theorem ofInt32_cast (i : Int) : (ofInt32 i : Int) = i % (U32 : Int) := by
  unfold ofInt32
  exact Int.toNat_of_nonneg (Int.emod_nonneg i (by norm_num [U32]))

/-- Round trip: an `int` value in the signed 32-bit range crosses to
`uint32_t` and back unchanged (bit pattern preserved exactly). -/
theorem toInt32_ofInt32 (i : Int) (h1 : -(2 ^ 31) ≤ i) (h2 : i < 2 ^ 31) :
    toInt32 (ofInt32 i) = i := by
  have hc : (ofInt32 i : Int) = i % 4294967296 := by
    rw [ofInt32_cast i]; norm_num [U32]
  have h1' : -2147483648 ≤ i := by norm_num at h1; exact h1
  have h2' : i < 2147483648 := by norm_num at h2; exact h2
  unfold toInt32
  by_cases hlt : ofInt32 i < 2 ^ 31
  · rw [if_pos hlt]
    have hlt' : (ofInt32 i : Int) < 2147483648 := by
      norm_num at hlt ⊢; exact_mod_cast hlt
    omega
  · rw [if_neg hlt]
    have hlt' : ¬((ofInt32 i : Int) < 2147483648) := by
      norm_num at hlt ⊢; exact_mod_cast hlt
    have hU : (U32 : Int) = 4294967296 := by norm_num [U32]
    rw [hU]
    omega

/-- C10: on the intrinsic branch the results pass through signed `int`
storage with 32-bit patterns preserved: the `uint32_t` selectors reach
the intrinsic as `int` values equal to them modulo `2^32`; each output
equals the corresponding element of the intrinsic's 4-element `int`
array reduced modulo `2^32`; and for array elements in the signed
32-bit range the conversion back to `int` restores the element
exactly. -/
theorem c10_signed_int_passthrough (cfg : Config) (intrin : Intrin)
    (hw : Hw) (leaf subleaf : Nat) (hm : cfg.msc = true)
    (hleaf : leaf < U32) (hsub : subleaf < U32)
    (hr : ∀ i : Fin 4,
      -(2 ^ 31) ≤ intrin (toInt32 leaf) (toInt32 subleaf) i ∧
      intrin (toInt32 leaf) (toInt32 subleaf) i < 2 ^ 31) :
    toInt32 leaf % (U32 : Int) = (leaf : Int) ∧
    toInt32 subleaf % (U32 : Int) = (subleaf : Int) ∧
    ((cpuid_raw cfg intrin hw leaf subleaf).eax : Int) =
      intrin (toInt32 leaf) (toInt32 subleaf) 0 % (U32 : Int) ∧
    ((cpuid_raw cfg intrin hw leaf subleaf).ebx : Int) =
      intrin (toInt32 leaf) (toInt32 subleaf) 1 % (U32 : Int) ∧
    ((cpuid_raw cfg intrin hw leaf subleaf).ecx : Int) =
      intrin (toInt32 leaf) (toInt32 subleaf) 2 % (U32 : Int) ∧
    ((cpuid_raw cfg intrin hw leaf subleaf).edx : Int) =
      intrin (toInt32 leaf) (toInt32 subleaf) 3 % (U32 : Int) ∧
    toInt32 ((cpuid_raw cfg intrin hw leaf subleaf).eax) =
      intrin (toInt32 leaf) (toInt32 subleaf) 0 ∧
    toInt32 ((cpuid_raw cfg intrin hw leaf subleaf).ebx) =
      intrin (toInt32 leaf) (toInt32 subleaf) 1 ∧
    toInt32 ((cpuid_raw cfg intrin hw leaf subleaf).ecx) =
      intrin (toInt32 leaf) (toInt32 subleaf) 2 ∧
    toInt32 ((cpuid_raw cfg intrin hw leaf subleaf).edx) =
      intrin (toInt32 leaf) (toInt32 subleaf) 3 := by
  have hres : cpuid_raw cfg intrin hw leaf subleaf =
      ⟨ofInt32 (intrin (toInt32 leaf) (toInt32 subleaf) 0),
       ofInt32 (intrin (toInt32 leaf) (toInt32 subleaf) 1),
       ofInt32 (intrin (toInt32 leaf) (toInt32 subleaf) 2),
       ofInt32 (intrin (toInt32 leaf) (toInt32 subleaf) 3)⟩ := by
    simp [cpuid_raw, hm]
  rw [hres]
  exact ⟨toInt32_emod leaf hleaf, toInt32_emod subleaf hsub,
    ofInt32_cast _, ofInt32_cast _, ofInt32_cast _, ofInt32_cast _,
    toInt32_ofInt32 _ (hr 0).1 (hr 0).2, toInt32_ofInt32 _ (hr 1).1 (hr 1).2,
    toInt32_ofInt32 _ (hr 2).1 (hr 2).2, toInt32_ofInt32 _ (hr 3).1 (hr 3).2⟩

/-- C10 witness: the MSC configuration with a concrete intrinsic array
`(0, 1, 2, -2)`, leaf `5` and a subleaf above `2^31` (so the selector
wraps negative on its way through `int`). -/
theorem c10_signed_int_passthrough_wit :
    toInt32 5 % (U32 : Int) = ((5 : Nat) : Int) ∧
    toInt32 4000000000 % (U32 : Int) = ((4000000000 : Nat) : Int) ∧
    ((cpuid_raw mscCfg demoIntrin zeroHw 5 4000000000).eax : Int) =
      demoIntrin (toInt32 5) (toInt32 4000000000) 0 % (U32 : Int) ∧
    ((cpuid_raw mscCfg demoIntrin zeroHw 5 4000000000).ebx : Int) =
      demoIntrin (toInt32 5) (toInt32 4000000000) 1 % (U32 : Int) ∧
    ((cpuid_raw mscCfg demoIntrin zeroHw 5 4000000000).ecx : Int) =
      demoIntrin (toInt32 5) (toInt32 4000000000) 2 % (U32 : Int) ∧
    ((cpuid_raw mscCfg demoIntrin zeroHw 5 4000000000).edx : Int) =
      demoIntrin (toInt32 5) (toInt32 4000000000) 3 % (U32 : Int) ∧
    toInt32 ((cpuid_raw mscCfg demoIntrin zeroHw 5 4000000000).eax) =
      demoIntrin (toInt32 5) (toInt32 4000000000) 0 ∧
    toInt32 ((cpuid_raw mscCfg demoIntrin zeroHw 5 4000000000).ebx) =
      demoIntrin (toInt32 5) (toInt32 4000000000) 1 ∧
    toInt32 ((cpuid_raw mscCfg demoIntrin zeroHw 5 4000000000).ecx) =
      demoIntrin (toInt32 5) (toInt32 4000000000) 2 ∧
    toInt32 ((cpuid_raw mscCfg demoIntrin zeroHw 5 4000000000).edx) =
      demoIntrin (toInt32 5) (toInt32 4000000000) 3 :=
  c10_signed_int_passthrough mscCfg demoIntrin zeroHw 5 4000000000 rfl
    (by norm_num [U32]) (by norm_num [U32])
    (by decide)
